import Mathlib

/-!
Shallow embedding of `pad.py` (mikedh/pad), a one-time-pad cipher.

The source operates on numpy arrays:
* the pad is a `(n,)` array of `uint8` values (modelled as `List Nat`, values `< 256`),
* the usage mask `unused` is a `(n,)` boolean array (`List Bool`, `true` = unused),
* an encrypted message is a `(m,)` array of `uint64` pad indices (`List Nat`).

`random.choice` (pycrypto's `Crypto.Random.random`) is modelled by an arbitrary
stream `rand : Nat → Nat`, step `k` picking element `rand k % options.length`
of the (sorted) candidate list; this ranges over exactly the choices the
uniform draw can make.  `zlib.compress/decompress` and `json.dumps/loads` are
external libraries: compression is abstracted as a pair of functions assumed
lossless on byte lists (`ZlibOk`), and the two-field JSON document is modelled
as the record `PadDoc` itself.  Base64 is implemented concretely.
-/

namespace PadSpec

/-- `default_pad_length = 1000000` in the source. -/
def default_pad_length : Nat := 1000000

/-- `np.array([ord(i) for i in str(message)], dtype=np.uint8)`: each character
code point is cast to an unsigned 8-bit value, i.e. reduced mod 256. -/
def byteOf (c : Nat) : Nat := c % 256

/-- `np.nonzero(np.logical_and(unused, pad == b))[0]`: the sorted indices of
pad positions that are unused and hold byte value `b`. -/
def candidates (pad : List Nat) (unused : List Bool) (b : Nat) : List Nat :=
  (List.range pad.length).filter fun i => unused.getD i false && (pad.getD i 0 == b)

/-- Number of available pad positions for byte value `b`. -/
def countCand (pad : List Nat) (unused : List Bool) (b : Nat) : Nat :=
  (candidates pad unused b).length

/-- `unused[i] = False` applied to each listed index in order (covers both the
per-symbol `unused[pad_index] = False` of `encrypt` and the vectorised
`self.unused[encrypted_array] = False` of `decrypt_message`). -/
def consumeAll (unused : List Bool) (idxs : List Nat) : List Bool :=
  idxs.foldl (fun u i => u.set i false) unused

/-- `random.choice(options)` at step `k`: element `rand k % len(options)` of the
candidate list (the draw is only constrained to be a member). -/
def choose (rand : Nat → Nat) (k : Nat) (options : List Nat) : Nat :=
  options.getD (rand k % options.length) 0

/-- The per-character loop of `encrypt`.  On an empty candidate list
`random.choice` raises `IndexError` (the spec's `PadExhausted(symbol,
position)`), modelled as `Except.error (position, symbol)`.  The second
component is the final state of the in-place mutated `unused` array, which is
mutated even when the loop fails partway through. -/
def encryptLoop (pad : List Nat) (rand : Nat → Nat) :
    List Nat → Nat → List Bool → List Nat → Except (Nat × Nat) (List Nat) × List Bool
  | [], _, unused, acc => (Except.ok acc.reverse, unused)
  | c :: rest, k, unused, acc =>
    if candidates pad unused c = [] then (Except.error (k, c), unused)
    else
      encryptLoop pad rand rest (k + 1)
        (unused.set (choose rand k (candidates pad unused c)) false)
        (choose rand k (candidates pad unused c) :: acc)

/-- `encrypt(message, pad, unused)`: the message (a string, given as the list
of its character code points) is first cast to bytes, then each byte consumes
one matching unused pad position.  Returns the encrypted index list and the
updated mask. -/
def encrypt (message : List Nat) (pad : List Nat) (unused : List Bool)
    (rand : Nat → Nat) : Except (Nat × Nat) (List Nat) × List Bool :=
  encryptLoop pad rand (message.map byteOf) 0 unused []

/-- `decrypt(encrypted, pad) = ''.join([chr(i) for i in pad[encrypted]])`:
numpy fancy indexing raises `IndexError` when any index is out of range
(modelled as `none`), otherwise each index is replaced by its pad value. -/
def decrypt (encrypted : List Nat) (pad : List Nat) : Option (List Nat) :=
  if encrypted.all (fun i => decide (i < pad.length)) then
    some (encrypted.map fun i => pad.getD i 0)
  else none

/-- Declarative exhaustion point: the first message position `j` whose byte
value has no candidates left once the earlier occurrences of that value in the
message have each consumed one.  (The candidate count for a value after `j`
successful steps does not depend on which candidates were drawn.) -/
def exhaustAt (pad : List Nat) (unused : List Bool) (m : List Nat) : Option Nat :=
  (List.range m.length).find? fun j =>
    decide (countCand pad unused (m.getD j 0) ≤ (m.take j).count (m.getD j 0))

/-- Fuelled helper for `long_to_bytes`: big-endian base-256 digits. -/
def ltbAux : Nat → Nat → List Nat → List Nat
  | 0, _, acc => acc
  | fuel + 1, n, acc => if n = 0 then acc else ltbAux fuel (n / 256) (n % 256 :: acc)

/-- pycrypto's `long_to_bytes(n)` (no blocksize): the minimal big-endian byte
representation of `n`, with `long_to_bytes(0) = b'\x00'`.  Leading zero bytes
of the number are NOT retained.  `n` bytes of fuel always suffice for `n`. -/
def long_to_bytes (n : Nat) : List Nat :=
  if n = 0 then [0] else ltbAux n n []

/-- `generate_pad(length)`:
`np.fromstring(random.long_to_bytes(random.getrandbits(int(length * 8))), uint8)`
with `unused = np.ones(len(pad), bool)`.  The entropy drawn by `getrandbits`
is an explicit argument (`getrandbits(k)` returns a value `< 2^k`); a negative
`length` makes `getrandbits` raise (`1 << k` with negative `k`), modelled as
`none`.  There is no length validation of any kind in the source. -/
def generate_pad (length : Int) (entropy : Nat) : Option (List Nat × List Bool) :=
  if length < 0 then none
  else
    some (long_to_bytes (entropy % 2 ^ (8 * length.toNat)),
      List.replicate (long_to_bytes (entropy % 2 ^ (8 * length.toNat))).length true)

/-- The base64 alphabet, sextet to character. -/
def b64Char (n : Nat) : Char :=
  if n < 26 then Char.ofNat (65 + n)
  else if n < 52 then Char.ofNat (97 + (n - 26))
  else if n < 62 then Char.ofNat (48 + (n - 52))
  else if n = 62 then Char.ofNat 43
  else Char.ofNat 47

/-- The base64 alphabet, character to sextet. -/
def b64Index (c : Char) : Option Nat :=
  if 65 ≤ c.toNat ∧ c.toNat ≤ 90 then some (c.toNat - 65)
  else if 97 ≤ c.toNat ∧ c.toNat ≤ 122 then some (c.toNat - 97 + 26)
  else if 48 ≤ c.toNat ∧ c.toNat ≤ 57 then some (c.toNat - 48 + 52)
  else if c.toNat = 43 then some 62
  else if c.toNat = 47 then some 63
  else none

/-- `base64.b64encode` on a byte list: three bytes become four sextet
characters, a short final group is padded with `=`. -/
def b64EncodeList : List Nat → List Char
  | [] => []
  | [a] => [b64Char (a / 4), b64Char (a % 4 * 16), Char.ofNat 61, Char.ofNat 61]
  | [a, b] => [b64Char (a / 4), b64Char (a % 4 * 16 + b / 16),
      b64Char (b % 16 * 4), Char.ofNat 61]
  | a :: b :: c :: rest =>
    b64Char (a / 4) :: b64Char (a % 4 * 16 + b / 16) :: b64Char (b % 16 * 4 + c / 64) ::
      b64Char (c % 64) :: b64EncodeList rest

/-- `base64.b64decode` on well-formed input: groups of four characters, the
last group possibly `=`-padded; `none` on malformed input. -/
def b64DecodeList : List Char → Option (List Nat)
  | [] => some []
  | c1 :: c2 :: c3 :: c4 :: rest =>
    match b64Index c1, b64Index c2 with
    | some n1, some n2 =>
      if c3.toNat = 61 then
        if c4.toNat = 61 ∧ rest = [] then some [n1 * 4 + n2 / 16] else none
      else
        match b64Index c3 with
        | some n3 =>
          if c4.toNat = 61 then
            if rest = [] then some [n1 * 4 + n2 / 16, n2 % 16 * 16 + n3 / 4] else none
          else
            match b64Index c4 with
            | some n4 =>
              (b64DecodeList rest).map fun bs =>
                (n1 * 4 + n2 / 16) :: (n2 % 16 * 16 + n3 / 4) :: (n3 % 4 * 64 + n4) :: bs
            | none => none
        | none => none
    | _, _ => none
  | _ => none

/-- `array.tostring()` for a boolean numpy array: one byte per entry. -/
def tostring_bool (u : List Bool) : List Nat := u.map fun b => if b then 1 else 0

/-- `np.fromstring(bytes, dtype=np.bool)`: a nonzero byte is `True`. -/
def fromstring_bool (bs : List Nat) : List Bool := bs.map fun x => x != 0

/-- The eight little-endian bytes of a `uint64` value (native x86 byte order,
as `array.tostring()` uses). -/
def bytesOfU64 (x : Nat) : List Nat :=
  [x % 256, x / 256 % 256, x / 65536 % 256, x / 16777216 % 256,
    x / 4294967296 % 256, x / 1099511627776 % 256, x / 281474976710656 % 256,
    x / 72057594037927936 % 256]

/-- `array.tostring()` for a `uint64` numpy array. -/
def tostring64 (xs : List Nat) : List Nat := (xs.map bytesOfU64).flatten

/-- `np.fromstring(bytes, dtype=np.uint64)`: byte string regrouped into
64-bit little-endian words; numpy raises when the length is not a multiple
of the item size (modelled as `none`). -/
def fromstring_u64 : List Nat → Option (List Nat)
  | [] => some []
  | b0 :: b1 :: b2 :: b3 :: b4 :: b5 :: b6 :: b7 :: rest =>
    (fromstring_u64 rest).map fun xs =>
      (b0 + b1 * 256 + b2 * 65536 + b3 * 16777216 + b4 * 4294967296 +
        b5 * 1099511627776 + b6 * 281474976710656 + b7 * 72057594037927936) :: xs
  | _ => none

/-- The external `zlib` pair is lossless on byte lists and produces bytes. -/
def ZlibOk (zc zd : List Nat → List Nat) : Prop :=
  ∀ bs : List Nat, (∀ x ∈ bs, x < 256) → zd (zc bs) = bs ∧ ∀ x ∈ zc bs, x < 256

/-- `to_packed(array, compress)`: base64 of the (optionally zlib-compressed)
raw byte string of the array.  `raw` is the array's `tostring()` bytes. -/
def to_packed (zc : List Nat → List Nat) (raw : List Nat) (compress : Bool) : String :=
  String.mk (b64EncodeList (if compress then zc raw else raw))

/-- `to_native(blob, dtype, decompress)` up to (but not including) the final
`np.fromstring` reinterpretation: base64-decode, optionally decompress. -/
def to_native (zd : List Nat → List Nat) (blob : String) (decompress : Bool) :
    Option (List Nat) :=
  (b64DecodeList blob.data).map fun bs => if decompress then zd bs else bs

/-- The JSON document written by `pack_pad`: fields `pad` and `unused`
(the `json.dumps`/`json.loads` pair on a two-string dict is the identity on
this record). -/
structure PadDoc where
  pad : String
  unused : String
deriving DecidableEq

/-- `pack_pad(pad, unused)`: the pad bytes base64'd uncompressed, the mask
bytes zlib'd then base64'd. -/
def pack_pad (zc : List Nat → List Nat) (pad : List Nat) (unused : List Bool) : PadDoc :=
  { pad := to_packed zc pad false
    unused := to_packed zc (tostring_bool unused) true }

/-- `unpack_pad(packed)`: decode both fields (`uint8` bytes are the pad values
themselves, mask bytes reinterpreted as booleans). -/
def unpack_pad (zd : List Nat → List Nat) (doc : PadDoc) :
    Option (List Nat × List Bool) := do
  let padBytes ← to_native zd doc.pad false
  let unusedBytes ← to_native zd doc.unused true
  some (padBytes, fromstring_bool unusedBytes)

/-- `to_packed(encrypted, compress=True)` on a `uint64` index array. -/
def encode_encrypted (zc : List Nat → List Nat) (msg : List Nat) : String :=
  to_packed zc (tostring64 msg) true

/-- `to_native(blob, dtype_message, decompress=True)`. -/
def decode_encrypted (zd : List Nat → List Nat) (blob : String) : Option (List Nat) := do
  let bytes ← to_native zd blob true
  fromstring_u64 bytes

/-- The in-memory state of a `PadWriter` together with the persisted file
content (`file` is what `_write_pad` last wrote). -/
structure PadWriter where
  pad : List Nat
  unused : List Bool
  file : PadDoc

/-- `PadWriter.encrypt_message`: run `encrypt`, persist the mutated store via
`_write_pad`, then return the packed ciphertext.  When `encrypt` raises, the
exception propagates: nothing is written, but the in-place mutated mask
remains (partial consumption is not rolled back). -/
def encrypt_message (zc : List Nat → List Nat) (w : PadWriter) (message : List Nat)
    (rand : Nat → Nat) : Except (Nat × Nat) String × PadWriter :=
  match encrypt message w.pad w.unused rand with
  | (Except.ok enc, u2) =>
    (Except.ok (encode_encrypted zc enc), ⟨w.pad, u2, pack_pad zc w.pad u2⟩)
  | (Except.error e, u2) => (Except.error e, ⟨w.pad, u2, w.file⟩)

/-- `PadWriter.decrypt_message`: decode the ciphertext, run `decrypt`, mark
every referenced index consumed (`self.unused[encrypted_array] = False`),
persist, return the plaintext. -/
def decrypt_message (zc zd : List Nat → List Nat) (w : PadWriter) (encStr : String) :
    Option (List Nat × PadWriter) := do
  let arr ← decode_encrypted zd encStr
  let msg ← decrypt arr w.pad
  some (msg, ⟨w.pad, consumeAll w.unused arr,
    pack_pad zc w.pad (consumeAll w.unused arr)⟩)

/-- One transaction against a store: an encrypt call (with its random stream)
or a decrypt call on an already-decoded index list. -/
inductive Op where
  | enc : List Nat → (Nat → Nat) → Op
  | dec : List Nat → Op

/-- Effect of one transaction on the mask, together with the list of freshly
selected indices it returns (a failed encrypt returns nothing but keeps its
partial consumption; a decrypt re-marks but selects nothing). -/
def runOp (pad : List Nat) (u : List Bool) : Op → List Bool × List Nat
  | Op.enc msg rand =>
    match encrypt msg pad u rand with
    | (Except.ok e, u2) => (u2, e)
    | (Except.error _, u2) => (u2, [])
  | Op.dec ct => if ct.all (fun i => decide (i < pad.length)) then (consumeAll u ct, []) else (u, [])

/-- A sequence of transactions: final mask and the per-transaction lists of
freshly selected indices. -/
def runOps (pad : List Nat) (u : List Bool) : List Op → List Bool × List (List Nat)
  | [] => (u, [])
  | op :: rest =>
    ((runOps pad (runOp pad u op).1 rest).1,
      (runOp pad u op).2 :: (runOps pad (runOp pad u op).1 rest).2)

/-! ### Basic list lemmas -/

theorem getD_eq_get {α} (l : List α) (d : α) :
    ∀ (j : Nat), (hj : j < l.length) → l.getD j d = l.get ⟨j, hj⟩ := by
  induction l with
  | nil => intro j hj; simp at hj
  | cons a t ih =>
    intro j hj
    cases j with
    | zero => rfl
    | succ j => simpa using ih j (by simpa using hj)

theorem getD_mem {α} (l : List α) (j : Nat) (d : α) (hj : j < l.length) :
    l.getD j d ∈ l := by
  rw [getD_eq_get l d j hj]; exact l.get_mem j hj

theorem getD_of_le {α} (l : List α) (j : Nat) (d : α) (hj : l.length ≤ j) :
    l.getD j d = d := by
  induction l generalizing j with
  | nil => simp [List.getD]
  | cons a t ih =>
    cases j with
    | zero => simp at hj
    | succ j => simpa using ih j (by simpa using hj)

theorem mem_getD {α} (l : List α) (x : α) (d : α) (hx : x ∈ l) :
    ∃ j, j < l.length ∧ l.getD j d = x := by
  obtain ⟨⟨j, hj⟩, rfl⟩ := List.mem_iff_get.mp hx
  exact ⟨j, hj, getD_eq_get l d j hj⟩

theorem getD_set_self (u : List Bool) (i : Nat) :
    (u.set i false).getD i false = false := by
  induction u generalizing i with
  | nil => simp [List.getD]
  | cons a t ih =>
    cases i with
    | zero => rfl
    | succ i => simpa using ih i

theorem getD_set_ne {α} (u : List α) (i j : Nat) (x d : α) (h : i ≠ j) :
    (u.set i x).getD j d = u.getD j d := by
  induction u generalizing i j with
  | nil => simp
  | cons a t ih =>
    cases i with
    | zero =>
      cases j with
      | zero => exact absurd rfl h
      | succ j => rfl
    | succ i =>
      cases j with
      | zero => rfl
      | succ j => simpa using ih i j (by omega)

theorem set_of_getD_false (u : List Bool) (i : Nat) (h : u.getD i false = false) :
    u.set i false = u := by
  induction u generalizing i with
  | nil => rfl
  | cons a t ih =>
    cases i with
    | zero => simp at h; simp [h]
    | succ i => simpa using ih i (by simpa using h)

theorem getD_take {α} (l : List α) (i j : Nat) (d : α) (hj : j < i) :
    (l.take i).getD j d = l.getD j d := by
  induction l generalizing i j with
  | nil => simp
  | cons a t ih =>
    cases i with
    | zero => omega
    | succ i =>
      cases j with
      | zero => rfl
      | succ j => simpa using ih i j (by omega)

/-! ### `consumeAll` -/

theorem consumeAll_nil (u : List Bool) : consumeAll u [] = u := rfl

theorem consumeAll_cons (u : List Bool) (i : Nat) (t : List Nat) :
    consumeAll u (i :: t) = consumeAll (u.set i false) t := rfl

theorem consumeAll_length (u : List Bool) (l : List Nat) :
    (consumeAll u l).length = u.length := by
  induction l generalizing u with
  | nil => rfl
  | cons i t ih => rw [consumeAll_cons, ih, List.length_set]

theorem consumeAll_getD_not_mem (u : List Bool) (l : List Nat) (i : Nat)
    (h : i ∉ l) : (consumeAll u l).getD i false = u.getD i false := by
  induction l generalizing u with
  | nil => rfl
  | cons j t ih =>
    have hji : j ≠ i := fun e => h (e ▸ List.mem_cons_self j t)
    rw [consumeAll_cons, ih (u.set j false) (fun hm => h (List.mem_cons_of_mem j hm)),
      getD_set_ne u j i false false hji]

theorem consumeAll_true_mono (u : List Bool) (l : List Nat) (i : Nat)
    (h : (consumeAll u l).getD i false = true) : u.getD i false = true := by
  induction l generalizing u with
  | nil => exact h
  | cons j t ih =>
    rw [consumeAll_cons] at h
    have h2 := ih _ h
    by_cases hji : j = i
    · subst hji; rw [getD_set_self] at h2; exact absurd h2 (by simp)
    · rwa [getD_set_ne u j i false false hji] at h2

theorem consumeAll_false_mono (u : List Bool) (l : List Nat) (i : Nat)
    (h : u.getD i false = false) : (consumeAll u l).getD i false = false := by
  cases hc : (consumeAll u l).getD i false with
  | false => rfl
  | true => rw [consumeAll_true_mono u l i hc] at h; simp at h

theorem consumeAll_getD_mem (u : List Bool) (l : List Nat) (i : Nat)
    (h : i ∈ l) : (consumeAll u l).getD i false = false := by
  induction l generalizing u with
  | nil => simp at h
  | cons j t ih =>
    rw [consumeAll_cons]
    rcases List.mem_cons.mp h with rfl | hm
    · exact consumeAll_false_mono _ t i (getD_set_self u i)
    · exact ih _ hm

theorem consumeAll_of_all_false (u : List Bool) (l : List Nat)
    (h : ∀ i ∈ l, u.getD i false = false) : consumeAll u l = u := by
  induction l with
  | nil => rfl
  | cons j t ih =>
    rw [consumeAll_cons, set_of_getD_false u j (h j (List.mem_cons_self j t))]
    exact ih fun i hi => h i (List.mem_cons_of_mem j hi)

/-! ### Candidates and choice -/

theorem mem_candidates (pad : List Nat) (unused : List Bool) (b i : Nat) :
    i ∈ candidates pad unused b ↔
      i < pad.length ∧ unused.getD i false = true ∧ pad.getD i 0 = b := by
  simp [candidates, List.mem_filter, List.mem_range, and_assoc]

theorem choose_mem (rand : Nat → Nat) (k : Nat) (options : List Nat)
    (h : options ≠ []) : choose rand k options ∈ options := by
  have hlen : 0 < options.length := List.length_pos.mpr h
  exact getD_mem options _ 0 (Nat.mod_lt _ hlen)

/-! ### Soundness of the encrypt loop -/

/-- Per-step soundness of an index trace `l` for message bytes `m` starting
from mask `u`: each selected index was unused immediately before its step,
lies inside the pad, and carries that step's byte value. -/
def StepSound (pad : List Nat) (u : List Bool) (m l : List Nat) : Prop :=
  l.length = m.length ∧
  ∀ j, j < l.length →
    (consumeAll u (l.take j)).getD (l.getD j 0) false = true ∧
    l.getD j 0 < pad.length ∧
    pad.getD (l.getD j 0) 0 = m.getD j 0

theorem stepSound_nil (pad : List Nat) (u : List Bool) : StepSound pad u [] [] :=
  ⟨rfl, fun j hj => absurd hj (by simp)⟩

theorem stepSound_cons (pad : List Nat) (u : List Bool) (c : Nat) (m2 : List Nat)
    (i : Nat) (l2 : List Nat) (hu : u.getD i false = true) (hi : i < pad.length)
    (hv : pad.getD i 0 = c) (h : StepSound pad (u.set i false) m2 l2) :
    StepSound pad u (c :: m2) (i :: l2) := by
  refine ⟨by simp [h.1], fun j hj => ?_⟩
  cases j with
  | zero => exact ⟨hu, hi, hv⟩
  | succ j =>
    have hj2 : j < l2.length := by simpa using hj
    have := h.2 j hj2
    simpa [consumeAll_cons] using this

theorem stepSound_cons_elim (pad : List Nat) (u : List Bool) (c : Nat)
    (m2 : List Nat) (i : Nat) (l2 : List Nat)
    (h : StepSound pad u (c :: m2) (i :: l2)) :
    u.getD i false = true ∧ i < pad.length ∧ pad.getD i 0 = c ∧
      StepSound pad (u.set i false) m2 l2 := by
  have h0 := h.2 0 (by simp)
  refine ⟨h0.1, h0.2.1, h0.2.2, by simpa using h.1, fun j hj => ?_⟩
  have := h.2 (j + 1) (by simpa using Nat.succ_lt_succ hj)
  simpa [consumeAll_cons] using this

/-- Every index produced by a prefix of a trace stays available at later steps
only if never selected before: traces are duplicate-free. -/
theorem stepSound_nodup (pad : List Nat) (u : List Bool) (m l : List Nat)
    (h : StepSound pad u m l) : l.Nodup := by
  induction l generalizing u m with
  | nil => exact List.nodup_nil
  | cons i t ih =>
    cases m with
    | nil => exact absurd h.1 (by simp)
    | cons c m2 =>
      obtain ⟨hu, hi, hv, h2⟩ := stepSound_cons_elim pad u c m2 i t h
      refine List.nodup_cons.mpr ⟨?_, ih _ _ h2⟩
      intro hmem
      obtain ⟨j, hj, hgd⟩ := mem_getD t i 0 hmem
      have hstep := (h.2 (j + 1) (by simpa using Nat.succ_lt_succ hj)).1
      have hfalse : (consumeAll u ((i :: t).take (j + 1))).getD i false = false := by
        apply consumeAll_getD_mem
        simp [List.mem_cons]
      rw [show (i :: t).getD (j + 1) 0 = t.getD j 0 from rfl, hgd, hfalse] at hstep
      simp at hstep

/-- Main success lemma for the encrypt loop: the result extends the
accumulator by a sound trace and the final mask is the fold of its
consumption. -/
theorem encryptLoop_ok_spec (pad : List Nat) (rand : Nat → Nat) :
    ∀ (m : List Nat) (k : Nat) (u : List Bool) (acc res : List Nat) (u2 : List Bool),
      encryptLoop pad rand m k u acc = (Except.ok res, u2) →
      ∃ l, res = acc.reverse ++ l ∧ u2 = consumeAll u l ∧ StepSound pad u m l := by
  intro m
  induction m with
  | nil =>
    intro k u acc res u2 h
    simp only [encryptLoop, Prod.mk.injEq, Except.ok.injEq] at h
    exact ⟨[], by simp [← h.1], by simp [← h.2, consumeAll_nil], stepSound_nil pad u⟩
  | cons c rest ih =>
    intro k u acc res u2 h
    rw [encryptLoop] at h
    by_cases hc : candidates pad u c = []
    · rw [if_pos hc] at h; simp at h
    · rw [if_neg hc] at h
      obtain ⟨l1, hres, hu2, hss⟩ := ih (k + 1) _ _ res u2 h
      have hmem := (mem_candidates pad u c _).mp (choose_mem rand k _ hc)
      refine ⟨choose rand k (candidates pad u c) :: l1, ?_, ?_, ?_⟩
      · rw [hres]; simp
      · rw [hu2, consumeAll_cons]
      · exact stepSound_cons pad u c rest _ l1 hmem.2.1 hmem.1 hmem.2.2 hss

/-- Main failure lemma for the encrypt loop: an exception occurs at the first
position whose candidate list is exhausted, after a sound trace for the
earlier symbols whose consumption persists in the final mask. -/
theorem encryptLoop_err_spec (pad : List Nat) (rand : Nat → Nat) :
    ∀ (m : List Nat) (k : Nat) (u : List Bool) (acc : List Nat)
      (pos sym : Nat) (u2 : List Bool),
      encryptLoop pad rand m k u acc = (Except.error (pos, sym), u2) →
      ∃ j l, j < m.length ∧ pos = k + j ∧ sym = m.getD j 0 ∧ l.length = j ∧
        u2 = consumeAll u l ∧ StepSound pad u (m.take j) l ∧
        candidates pad u2 (m.getD j 0) = [] := by
  intro m
  induction m with
  | nil =>
    intro k u acc pos sym u2 h
    simp [encryptLoop] at h
  | cons c rest ih =>
    intro k u acc pos sym u2 h
    rw [encryptLoop] at h
    by_cases hc : candidates pad u c = []
    · rw [if_pos hc] at h
      simp only [Prod.mk.injEq, Except.error.injEq] at h
      obtain ⟨⟨hpos, hsym⟩, hu2⟩ := h
      refine ⟨0, [], by simp, by omega, by simp [← hsym], rfl,
        by simp [← hu2, consumeAll_nil], ?_, by simpa [← hu2] using hc⟩
      simpa using stepSound_nil pad u
    · rw [if_neg hc] at h
      obtain ⟨j1, l1, hjlen, hpos, hsym, hl1len, hu2, hss, hcand⟩ :=
        ih (k + 1) _ _ pos sym u2 h
      have hmem := (mem_candidates pad u c _).mp (choose_mem rand k _ hc)
      refine ⟨j1 + 1, choose rand k (candidates pad u c) :: l1,
        by simpa using Nat.succ_lt_succ hjlen, by omega, by simpa using hsym,
        by simp [hl1len], by rw [hu2, consumeAll_cons], ?_, by simpa using hcand⟩
      have : (c :: rest).take (j1 + 1) = c :: rest.take j1 := rfl
      rw [this]
      exact stepSound_cons pad u c _ _ l1 hmem.2.1 hmem.1 hmem.2.2 hss

/-! ### Candidate counting: the number of options left for each byte value
after a successful prefix does not depend on which candidates were drawn. -/

theorem countP_remove_one (l : List Nat) (p q : Nat → Bool) (idx : Nat)
    (hl : l.Nodup) (hq : ∀ i, i ≠ idx → q i = p i) (hqi : q idx = false)
    (hpi : p idx = true) (hmem : idx ∈ l) : l.countP p = l.countP q + 1 := by
  induction l with
  | nil => simp at hmem
  | cons a t ih =>
    obtain ⟨hat, htd⟩ := List.nodup_cons.mp hl
    by_cases ha : a = idx
    · subst ha
      have hcongr : t.countP p = t.countP q := by
        apply List.countP_congr
        intro x hx
        rw [hq x (fun e => hat (e ▸ hx))]
      rw [List.countP_cons, List.countP_cons, hpi, hqi, hcongr]
      simp
    · have hmem2 : idx ∈ t := by
        rcases List.mem_cons.mp hmem with h1 | h1
        · exact absurd h1.symm ha
        · exact h1
      rw [List.countP_cons, List.countP_cons, ih htd hmem2, hq a ha]
      omega

theorem countCand_set (pad : List Nat) (u : List Bool) (c idx : Nat)
    (hmem : idx ∈ candidates pad u c) (b : Nat) :
    countCand pad u b = countCand pad (u.set idx false) b +
      (if c = b then 1 else 0) := by
  obtain ⟨hlen, hu, hv⟩ := (mem_candidates pad u c idx).mp hmem
  have hlcand : ∀ (w : List Bool) (x : Nat), countCand pad w x =
      (List.range pad.length).countP
        fun i => w.getD i false && (pad.getD i 0 == x) := by
    intro w x
    rw [countCand, candidates, List.countP_eq_length_filter]
  have hq : ∀ i, i ≠ idx →
      ((u.set idx false).getD i false && (pad.getD i 0 == b)) =
        (u.getD i false && (pad.getD i 0 == b)) := by
    intro i hi
    rw [getD_set_ne u idx i false false (fun e => hi e.symm)]
  have hqi : ((u.set idx false).getD idx false && (pad.getD idx 0 == b)) = false := by
    rw [getD_set_self]; rfl
  by_cases hcb : c = b
  · subst hcb
    have hpi : (u.getD idx false && (pad.getD idx 0 == c)) = true := by
      rw [hu, hv]; simp
    rw [hlcand u c, hlcand (u.set idx false) c, if_pos rfl]
    exact countP_remove_one (List.range pad.length) _ _ idx (List.nodup_range pad.length)
      hq hqi hpi (List.mem_range.mpr hlen)
  · have hpi : (u.getD idx false && (pad.getD idx 0 == b)) = false := by
      rw [hv]
      simp [hcb]
    rw [hlcand u b, hlcand (u.set idx false) b, if_neg hcb]
    have : (List.range pad.length).countP
        (fun i => (u.set idx false).getD i false && (pad.getD i 0 == b)) =
        (List.range pad.length).countP
          (fun i => u.getD i false && (pad.getD i 0 == b)) := by
      apply List.countP_congr
      intro x _
      by_cases hx : x = idx
      · subst hx; rw [hqi, hpi]
      · rw [hq x hx]
    omega

/-- Consuming a sound trace removes exactly one candidate per processed
occurrence of each byte value. -/
theorem stepSound_countCand (pad : List Nat) :
    ∀ (l m : List Nat) (u : List Bool), StepSound pad u m l →
      ∀ b, countCand pad u b = countCand pad (consumeAll u l) b + m.count b := by
  intro l
  induction l with
  | nil =>
    intro m u h b
    have : m = [] := List.length_eq_zero.mp (h.1.symm ▸ rfl)
    subst this
    simp [consumeAll_nil]
  | cons i t ih =>
    intro m u h b
    cases m with
    | nil => exact absurd h.1 (by simp)
    | cons c m2 =>
      obtain ⟨hu, hi, hv, h2⟩ := stepSound_cons_elim pad u c m2 i t h
      have hmem : i ∈ candidates pad u c :=
        (mem_candidates pad u c i).mpr ⟨hi, hu, hv⟩
      have e1 := countCand_set pad u c i hmem b
      have e2 := ih m2 (u.set i false) h2 b
      rw [consumeAll_cons, e1, e2, List.count_cons]
      have : (if c == b then 1 else 0) = (if c = b then 1 else 0) := by
        by_cases hcb : c = b
        · simp [hcb]
        · simp [hcb]
      omega

/-- Prefixes of sound traces are sound. -/
theorem stepSound_take (pad : List Nat) (u : List Bool) (m l : List Nat)
    (h : StepSound pad u m l) (i : Nat) (hi : i ≤ l.length) :
    StepSound pad u (m.take i) (l.take i) := by
  refine ⟨?_, fun j hj => ?_⟩
  · rw [List.length_take, List.length_take, h.1]
  · have hjl : j < i := by
      have := List.length_take i l
      omega
    have hjlen : j < l.length := by omega
    have hstep := h.2 j hjlen
    rw [List.take_take, getD_take l i j 0 hjl, getD_take m i j 0 hjl]
    have : min j i = j := by omega
    rw [this]
    exact hstep

/-! ### `find?` over a range -/

theorem find?_range'_eq_some (p : Nat → Bool) :
    ∀ (len s j : Nat), s ≤ j → j < s + len → p j = true →
      (∀ i, s ≤ i → i < j → p i = false) → (List.range' s len).find? p = some j := by
  intro len
  induction len with
  | zero => intro s j h1 h2; omega
  | succ len ih =>
    intro s j h1 h2 hp hlt
    rw [List.range'_succ]
    by_cases hsj : s = j
    · subst hsj
      exact List.find?_cons_of_pos _ hp
    · have hne : ¬ p s = true := by
        rw [hlt s (Nat.le_refl s) (by omega)]; simp
      rw [List.find?_cons_of_neg _ hne]
      exact ih (s + 1) j (by omega) (by omega) hp fun i hi1 hi2 => hlt i (by omega) hi2

theorem find?_range_eq_some (p : Nat → Bool) (n j : Nat) (hj : j < n)
    (hp : p j = true) (hlt : ∀ i, i < j → p i = false) :
    (List.range n).find? p = some j := by
  rw [List.range_eq_range']
  exact find?_range'_eq_some p n 0 j (Nat.zero_le j) (by omega) hp
    fun i _ hij => hlt i hij

theorem getD_eq_getElem {α} (l : List α) (d : α) (j : Nat) (hj : j < l.length) :
    l.getD j d = l[j] := by
  rw [getD_eq_get l d j hj, List.get_eq_getElem]

theorem getD_map (f : Nat → Nat) (l : List Nat) (j : Nat) (hj : j < l.length) :
    (l.map f).getD j 0 = f (l.getD j 0) := by
  rw [getD_eq_getElem (l.map f) 0 j (by simpa using hj), List.getElem_map,
    getD_eq_getElem l 0 j hj]

theorem stepSound_mem_unused (pad : List Nat) (u : List Bool) (m l : List Nat)
    (h : StepSound pad u m l) (i : Nat) (hi : i ∈ l) : u.getD i false = true := by
  obtain ⟨j, hj, hgd⟩ := mem_getD l i 0 hi
  have hstep := (h.2 j hj).1
  rw [hgd] at hstep
  exact consumeAll_true_mono u (l.take j) i hstep

/-- **C1**: decrypting the result of a successful encryption returns the
original message, provided every character of the message is a byte value
(0-255). -/
theorem encrypt_decrypt_round_trip (message pad : List Nat) (unused : List Bool)
    (rand : Nat → Nat) (enc : List Nat) (u2 : List Bool)
    (hmsg : ∀ c ∈ message, c < 256)
    (henc : encrypt message pad unused rand = (Except.ok enc, u2)) :
    decrypt enc pad = some message := by
  obtain ⟨l, hres, hu2, hss⟩ :=
    encryptLoop_ok_spec pad rand (message.map byteOf) 0 unused [] enc u2 henc
  simp only [List.reverse_nil, List.nil_append] at hres
  subst hres
  have hlen : enc.length = message.length := by simpa using hss.1
  have hall : enc.all (fun i => decide (i < pad.length)) = true := by
    rw [List.all_eq_true]
    intro x hx
    obtain ⟨j, hj, hgd⟩ := mem_getD enc x 0 hx
    have := (hss.2 j hj).2.1
    rw [hgd] at this
    simpa using this
  rw [decrypt, if_pos hall]
  congr 1
  apply List.ext_getElem (by simpa using hlen)
  intro i h1 h2
  have hil : i < enc.length := by simpa using h1
  have hstep := hss.2 i hil
  have hbyte : (message.map byteOf).getD i 0 = byteOf (message.getD i 0) :=
    getD_map byteOf message i (by omega)
  have hmlt : message.getD i 0 < 256 := hmsg _ (getD_mem message i 0 (by omega))
  have hid : byteOf (message.getD i 0) = message.getD i 0 := by
    unfold byteOf; omega
  rw [List.getElem_map, ← getD_eq_getElem enc 0 i hil, ← getD_eq_getElem message 0 i h2,
    hstep.2.2, hbyte, hid]

theorem encrypt_decrypt_round_trip_witness : decrypt [0] [65] = some [65] :=
  encrypt_decrypt_round_trip [65] [65] [true] (fun _ => 0) [0] [false] (by decide) rfl

/-- **C3**: a successful encryption returns one pad index per message symbol,
each carrying the symbol's byte value and unused immediately before its
selection within the call. -/
theorem encrypt_functional_correctness (message pad : List Nat) (unused : List Bool)
    (rand : Nat → Nat) (enc : List Nat) (u2 : List Bool)
    (hmsg : ∀ c ∈ message, c < 256)
    (henc : encrypt message pad unused rand = (Except.ok enc, u2)) :
    enc.length = message.length ∧
    ∀ i, i < enc.length →
      enc.getD i 0 < pad.length ∧
      pad.getD (enc.getD i 0) 0 = message.getD i 0 ∧
      (consumeAll unused (enc.take i)).getD (enc.getD i 0) false = true := by
  obtain ⟨l, hres, hu2, hss⟩ :=
    encryptLoop_ok_spec pad rand (message.map byteOf) 0 unused [] enc u2 henc
  simp only [List.reverse_nil, List.nil_append] at hres
  subst hres
  have hlen : enc.length = message.length := by simpa using hss.1
  refine ⟨hlen, fun i hi => ?_⟩
  have hstep := hss.2 i hi
  have hbyte : (message.map byteOf).getD i 0 = byteOf (message.getD i 0) :=
    getD_map byteOf message i (by omega)
  have hmlt : message.getD i 0 < 256 := hmsg _ (getD_mem message i 0 (by omega))
  have hid : byteOf (message.getD i 0) = message.getD i 0 := by
    unfold byteOf; omega
  exact ⟨hstep.2.1, by rw [hstep.2.2, hbyte, hid], hstep.1⟩

theorem encrypt_functional_correctness_witness :
    ([0] : List Nat).length = ([65] : List Nat).length ∧
    ∀ i, i < ([0] : List Nat).length →
      ([0] : List Nat).getD i 0 < ([65] : List Nat).length ∧
      ([65] : List Nat).getD (([0] : List Nat).getD i 0) 0 = ([65] : List Nat).getD i 0 ∧
      (consumeAll [true] (([0] : List Nat).take i)).getD (([0] : List Nat).getD i 0) false = true :=
  encrypt_functional_correctness [65] [65] [true] (fun _ => 0) [0] [false] (by decide) rfl

/-- **C10**: the conversion step reduces every character code point mod 256
(numpy's cast to `uint8`), so a message with out-of-range characters is
encrypted exactly like the message of their low bytes, with no rejection. -/
theorem encrypt_wraps_code_points (message pad : List Nat) (unused : List Bool)
    (rand : Nat → Nat) :
    encrypt message pad unused rand =
      encrypt (message.map fun c => c % 256) pad unused rand := by
  unfold encrypt
  rw [List.map_map]
  have : ∀ c : Nat, byteOf (c % 256) = byteOf c := by
    intro c; unfold byteOf; omega
  have hmap : message.map (byteOf ∘ fun c => c % 256) = message.map byteOf :=
    List.map_congr_left fun c _ => this c
  rw [hmap]

/-- **C7** (code bug): `generate_pad` promises a `(length,)` pad in its own
docstring, but `long_to_bytes` strips leading zero bytes of the drawn random
number: when `getrandbits(16)` returns `5`, `generate_pad(2)` produces the
single-byte pad `[5]`, not two bytes.  (The mask does match the produced pad's
length and is all-unused.) -/
theorem generate_pad_length_bug :
    generate_pad 2 5 = some ([5], [true]) ∧ ([5] : List Nat).length ≠ 2 := by
  constructor
  · rfl
  · decide

/-- **C9** (counterexample): store creation with the non-positive length `0`
does not fail at all — there is no `InvalidLength` check anywhere in the
source; `generate_pad(0)` succeeds and returns the one-byte pad `[0]`. -/
theorem generate_pad_zero_succeeds :
    generate_pad 0 0 = some ([0], [true]) ∧ generate_pad 0 0 ≠ none := by
  constructor
  · rfl
  · intro h
    simp [generate_pad, long_to_bytes] at h

/-- **C9** (amended): no `InvalidLength` error exists.  A negative requested
length fails only with a generic error raised inside the random source
(`1 << k` with negative `k`), while a requested length of `0` succeeds,
producing the one-byte pad `[0]` with an all-unused mask. -/
theorem generate_pad_invalid_length_amended (length : Int) (entropy : Nat) :
    (length < 0 → generate_pad length entropy = none) ∧
    (length = 0 → generate_pad length entropy = some ([0], [true])) := by
  constructor
  · intro h
    rw [generate_pad, if_pos h]
  · intro h
    subst h
    rw [generate_pad, if_neg (by omega)]
    simp [Nat.mod_one, long_to_bytes]

theorem generate_pad_invalid_length_amended_witness :
    generate_pad (-1) 7 = none ∧ generate_pad 0 7 = some ([0], [true]) :=
  ⟨(generate_pad_invalid_length_amended (-1) 7).1 (by decide),
    (generate_pad_invalid_length_amended 0 7).2 rfl⟩

/-- At every position a sound trace actually processed, the initial candidate
count of that position's byte value strictly exceeds the number of earlier
occurrences of that value: the exhaustion predicate is false there. -/
theorem stepSound_pred_false (pad : List Nat) (u : List Bool) (m l : List Nat)
    (h : StepSound pad u m l) (i : Nat) (hi : i < l.length) :
    (m.take i).count (m.getD i 0) < countCand pad u (m.getD i 0) := by
  have hpre := stepSound_take pad u m l h i (Nat.le_of_lt hi)
  have hcount := stepSound_countCand pad (l.take i) (m.take i) u hpre (m.getD i 0)
  have hstep := h.2 i hi
  have hmem : l.getD i 0 ∈ candidates pad (consumeAll u (l.take i)) (m.getD i 0) :=
    (mem_candidates pad (consumeAll u (l.take i)) (m.getD i 0) (l.getD i 0)).mpr
      ⟨hstep.2.1, hstep.1, hstep.2.2⟩
  have hpos : 0 < countCand pad (consumeAll u (l.take i)) (m.getD i 0) := by
    rw [countCand]
    exact List.length_pos.mpr (List.ne_nil_of_mem hmem)
  omega

/-- **C4**: `encrypt` raises (the spec's `PadExhausted`) exactly when
sequential consumption runs some symbol's candidate set empty; the failure
position is the first such symbol (`exhaustAt`, which is independent of the
random draws), it carries that symbol, and the consumption committed for the
earlier symbols of the same message persists in the final mask (no rollback).
A successful call means no symbol exhausts its candidates. -/
theorem encrypt_exhaustion_iff (message pad : List Nat) (u : List Bool)
    (rand : Nat → Nat) :
    (∀ pos sym u2, encrypt message pad u rand = (Except.error (pos, sym), u2) →
      exhaustAt pad u (message.map byteOf) = some pos ∧
      sym = (message.map byteOf).getD pos 0 ∧
      ∃ l, l.length = pos ∧ u2 = consumeAll u l ∧
        ∀ i ∈ l, u.getD i false = true ∧ u2.getD i false = false) ∧
    (∀ res u2, encrypt message pad u rand = (Except.ok res, u2) →
      exhaustAt pad u (message.map byteOf) = none) := by
  constructor
  · intro pos sym u2 herr
    obtain ⟨j, l, hj, hpos, hsym, hlj, hu2, hss, hcand⟩ :=
      encryptLoop_err_spec pad rand (message.map byteOf) 0 u [] pos sym u2 herr
    have hpos0 : pos = j := by omega
    subst hpos0
    refine ⟨?_, hsym, l, hlj, hu2, fun i hi =>
      ⟨stepSound_mem_unused pad u _ l hss i hi,
        hu2 ▸ consumeAll_getD_mem u l i hi⟩⟩
    rw [exhaustAt]
    apply find?_range_eq_some
    · exact hj
    · have hzero : countCand pad u2 ((message.map byteOf).getD pos 0) = 0 := by
        rw [countCand, hcand]
        rfl
      have hcount := stepSound_countCand pad l ((message.map byteOf).take pos) u hss
        ((message.map byteOf).getD pos 0)
      rw [← hu2] at hcount
      simp only [decide_eq_true_eq]
      omega
    · intro i hij
      have hil : i < l.length := by omega
      have hlt := stepSound_pred_false pad u ((message.map byteOf).take pos) l hss i hil
      rw [getD_take (message.map byteOf) pos i 0 (by omega), List.take_take] at hlt
      have hmin : min i pos = i := by omega
      rw [hmin] at hlt
      simp only [decide_eq_false_iff_not]
      omega
  · intro res u2 hok
    obtain ⟨l, hres, hu2, hss⟩ :=
      encryptLoop_ok_spec pad rand (message.map byteOf) 0 u [] res u2 hok
    rw [exhaustAt, List.find?_eq_none]
    intro x hx
    have hxl : x < l.length := by
      rw [hss.1]
      exact List.mem_range.mp hx
    have hlt := stepSound_pred_false pad u (message.map byteOf) l hss x hxl
    simp only [decide_eq_true_eq]
    omega

theorem encrypt_exhaustion_iff_witness :
    exhaustAt [88] [true] ([88, 88].map byteOf) = some 1 ∧
    exhaustAt [88, 66] [true, true] ([88].map byteOf) = none :=
  ⟨((encrypt_exhaustion_iff [88, 88] [88] [true] (fun _ => 0)).1 1 88 [false] rfl).1,
    (encrypt_exhaustion_iff [88] [88, 66] [true, true] (fun _ => 0)).2 [0] [false, true] rfl⟩

/-! ### Transaction sequences -/

theorem encryptLoop_mask (pad : List Nat) (rand : Nat → Nat) :
    ∀ (m : List Nat) (k : Nat) (u : List Bool) (acc : List Nat),
      ∃ l, (encryptLoop pad rand m k u acc).2 = consumeAll u l := by
  intro m
  induction m with
  | nil => intro k u acc; exact ⟨[], rfl⟩
  | cons c rest ih =>
    intro k u acc
    rw [encryptLoop]
    by_cases hc : candidates pad u c = []
    · rw [if_pos hc]; exact ⟨[], rfl⟩
    · rw [if_neg hc]
      obtain ⟨l, hl⟩ := ih (k + 1)
        (u.set (choose rand k (candidates pad u c)) false)
        (choose rand k (candidates pad u c) :: acc)
      exact ⟨choose rand k (candidates pad u c) :: l, by rw [consumeAll_cons]; exact hl⟩

/-- Every transaction's effect on the mask is a fold of consumptions. -/
theorem runOp_mask (pad : List Nat) (u : List Bool) (op : Op) :
    ∃ l, (runOp pad u op).1 = consumeAll u l := by
  cases op with
  | enc msg rand =>
    obtain ⟨l, hl⟩ := encryptLoop_mask pad rand (msg.map byteOf) 0 u []
    cases hres : encrypt msg pad u rand with
    | mk r u2 =>
      have hu2 : u2 = consumeAll u l := by
        rw [← hl, show encryptLoop pad rand (msg.map byteOf) 0 u [] = (r, u2) from hres]
      cases r with
      | ok e => exact ⟨l, by simp [runOp, hres, hu2]⟩
      | error e => exact ⟨l, by simp [runOp, hres, hu2]⟩
  | dec ct =>
    by_cases h : ct.all (fun i => decide (i < pad.length)) = true
    · exact ⟨ct, by simp [runOp, h]⟩
    · exact ⟨[], by simp [runOp, h, consumeAll_nil]⟩

/-- The freshly selected indices of one transaction are duplicate-free, were
unused when the transaction started, and are consumed when it ends. -/
theorem runOp_fresh (pad : List Nat) (u : List Bool) (op : Op) :
    (runOp pad u op).2.Nodup ∧
    ∀ i ∈ (runOp pad u op).2,
      u.getD i false = true ∧ (runOp pad u op).1.getD i false = false := by
  cases op with
  | enc msg rand =>
    cases hres : encrypt msg pad u rand with
    | mk r u2 =>
      cases r with
      | ok e =>
        obtain ⟨l, hres2, hu2, hss⟩ :=
          encryptLoop_ok_spec pad rand (msg.map byteOf) 0 u [] e u2 hres
        simp only [List.reverse_nil, List.nil_append] at hres2
        subst hres2
        constructor
        · simpa [runOp, hres] using stepSound_nodup pad u _ e hss
        · intro i hi
          rw [runOp] at hi ⊢
          simp only [hres] at hi ⊢
          exact ⟨stepSound_mem_unused pad u _ e hss i hi,
            hu2 ▸ consumeAll_getD_mem u e i hi⟩
      | error e =>
        constructor
        · simp [runOp, hres]
        · intro i hi
          simp [runOp, hres] at hi
  | dec ct =>
    by_cases h : ct.all (fun i => decide (i < pad.length)) = true
    · exact ⟨by simp [runOp, h], fun i hi => by simp [runOp, h] at hi⟩
    · exact ⟨by simp [runOp, h], fun i hi => by simp [runOp, h] at hi⟩

/-- Once consumed, an index stays consumed across any sequence of
transactions. -/
theorem runOps_mask (pad : List Nat) :
    ∀ (ops : List Op) (u : List Bool) (i : Nat),
      u.getD i false = false → (runOps pad u ops).1.getD i false = false := by
  intro ops
  induction ops with
  | nil => intro u i h; exact h
  | cons op rest ih =>
    intro u i h
    rw [runOps]
    apply ih
    obtain ⟨l, hl⟩ := runOp_mask pad u op
    rw [hl]
    exact consumeAll_false_mono u l i h

/-- Every index freshly selected anywhere in a sequence was unused at the
start of the sequence. -/
theorem runOps_fresh_unused (pad : List Nat) :
    ∀ (ops : List Op) (u : List Bool) (i : Nat),
      i ∈ (runOps pad u ops).2.flatten → u.getD i false = true := by
  intro ops
  induction ops with
  | nil => intro u i h; simp [runOps] at h
  | cons op rest ih =>
    intro u i h
    rw [runOps] at h
    simp only [List.flatten_cons, List.mem_append] at h
    rcases h with h1 | h2
    · exact ((runOp_fresh pad u op).2 i h1).1
    · have ht := ih (runOp pad u op).1 i h2
      obtain ⟨l, hl⟩ := runOp_mask pad u op
      rw [hl] at ht
      exact consumeAll_true_mono u l i ht

/-- No index is freshly selected twice across a sequence of transactions. -/
theorem runOps_nodup (pad : List Nat) :
    ∀ (ops : List Op) (u : List Bool), (runOps pad u ops).2.flatten.Nodup := by
  intro ops
  induction ops with
  | nil => intro u; simp [runOps]
  | cons op rest ih =>
    intro u
    rw [runOps]
    simp only [List.flatten_cons]
    rw [List.nodup_append]
    refine ⟨(runOp_fresh pad u op).1, ih (runOp pad u op).1, ?_⟩
    intro a ha hb
    have h1 := ((runOp_fresh pad u op).2 a ha).2
    have h2 := runOps_fresh_unused pad rest (runOp pad u op).1 a hb
    rw [h1] at h2
    simp at h2

/-- **C2**: the usage mask is monotonic — an index consumed by any single
transaction, or anywhere in a sequence of transactions, is never unused
afterwards — and across a sequence of encrypt/decrypt transactions no index
is ever returned twice as a freshly selected consumption. -/
theorem mask_monotone_and_no_reuse (pad : List Nat) (u : List Bool) (ops : List Op) :
    (∀ op i, u.getD i false = false → (runOp pad u op).1.getD i false = false) ∧
    (∀ i, u.getD i false = false → (runOps pad u ops).1.getD i false = false) ∧
    (runOps pad u ops).2.flatten.Nodup := by
  refine ⟨fun op i h => ?_, fun i h => runOps_mask pad ops u i h, runOps_nodup pad ops u⟩
  obtain ⟨l, hl⟩ := runOp_mask pad u op
  rw [hl]
  exact consumeAll_false_mono u l i h

theorem mask_monotone_and_no_reuse_witness :
    (runOps [65] [false] []).1.getD 0 false = false :=
  (mask_monotone_and_no_reuse [65] [false] []).2.1 0 rfl

/-! ### Codec round trips -/

theorem b64Index_b64Char : ∀ n : Nat, n < 64 → b64Index (b64Char n) = some n := by
  decide

theorem b64Char_ne_pad : ∀ n : Nat, n < 64 → (b64Char n).toNat ≠ 61 := by
  decide

/-- Base64 decoding inverts encoding on byte lists. -/
theorem b64_roundtrip : ∀ (bs : List Nat), (∀ x ∈ bs, x < 256) →
    b64DecodeList (b64EncodeList bs) = some bs := by
  intro bs
  induction bs using b64EncodeList.induct with
  | case1 => intro h; rfl
  | case2 a =>
    intro h
    have ha : a < 256 := h a (by simp)
    rw [b64EncodeList, b64DecodeList, b64Index_b64Char (a / 4) (by omega),
      b64Index_b64Char (a % 4 * 16) (by omega)]
    simp only
    rw [if_pos (by decide : (Char.ofNat 61).toNat = 61)]
    rw [if_pos (⟨by decide, trivial⟩ : (Char.ofNat 61).toNat = 61 ∧ True)]
    congr 2
    omega
  | case3 a b =>
    intro h
    have ha : a < 256 := h a (by simp)
    have hb : b < 256 := h b (by simp)
    rw [b64EncodeList, b64DecodeList, b64Index_b64Char (a / 4) (by omega),
      b64Index_b64Char (a % 4 * 16 + b / 16) (by omega)]
    simp only
    rw [if_neg (b64Char_ne_pad (b % 16 * 4) (by omega)),
      b64Index_b64Char (b % 16 * 4) (by omega)]
    simp only
    rw [if_pos (by decide : (Char.ofNat 61).toNat = 61), if_pos trivial]
    congr 1
    have e1 : a / 4 * 4 + (a % 4 * 16 + b / 16) / 16 = a := by omega
    have e2 : (a % 4 * 16 + b / 16) % 16 * 16 + b % 16 * 4 / 4 = b := by omega
    rw [e1, e2]
  | case4 a b c rest ih =>
    intro h
    have ha : a < 256 := h a (by simp)
    have hb : b < 256 := h b (by simp)
    have hc : c < 256 := h c (by simp)
    have hrest : ∀ x ∈ rest, x < 256 := fun x hx => h x (by simp [hx])
    rw [b64EncodeList, b64DecodeList, b64Index_b64Char (a / 4) (by omega),
      b64Index_b64Char (a % 4 * 16 + b / 16) (by omega)]
    simp only
    rw [if_neg (b64Char_ne_pad (b % 16 * 4 + c / 64) (by omega)),
      b64Index_b64Char (b % 16 * 4 + c / 64) (by omega)]
    simp only
    rw [if_neg (b64Char_ne_pad (c % 64) (by omega)),
      b64Index_b64Char (c % 64) (by omega)]
    simp only
    rw [ih hrest]
    simp only [Option.map_some']
    congr 1
    have e1 : a / 4 * 4 + (a % 4 * 16 + b / 16) / 16 = a := by omega
    have e2 : (a % 4 * 16 + b / 16) % 16 * 16 + (b % 16 * 4 + c / 64) / 4 = b := by omega
    have e3 : (b % 16 * 4 + c / 64) % 4 * 64 + c % 64 = c := by omega
    rw [e1, e2, e3]

theorem tostring_bool_lt (u : List Bool) : ∀ x ∈ tostring_bool u, x < 256 := by
  intro x hx
  simp only [tostring_bool, List.mem_map] at hx
  obtain ⟨b, _, hb⟩ := hx
  cases b <;> simp at hb <;> omega

theorem fromstring_tostring_bool (u : List Bool) :
    fromstring_bool (tostring_bool u) = u := by
  rw [fromstring_bool, tostring_bool, List.map_map]
  have : ((fun x : Nat => x != 0) ∘ fun b : Bool => if b then 1 else 0) = id := by
    funext b; cases b <;> rfl
  rw [this, List.map_id]

theorem bytesOfU64_lt (x : Nat) : ∀ b ∈ bytesOfU64 x, b < 256 := by
  intro b hb
  simp only [bytesOfU64, List.mem_cons, List.not_mem_nil, or_false] at hb
  rcases hb with rfl | rfl | rfl | rfl | rfl | rfl | rfl | rfl <;> omega

theorem tostring64_lt (xs : List Nat) : ∀ x ∈ tostring64 xs, x < 256 := by
  intro x hx
  simp only [tostring64, List.mem_flatten, List.mem_map] at hx
  obtain ⟨l, ⟨y, _, rfl⟩, hxl⟩ := hx
  exact bytesOfU64_lt y x hxl

/-- `np.fromstring(_, uint64)` inverts `tostring()` on `uint64` values. -/
theorem fromstring_tostring64 (xs : List Nat) (h : ∀ x ∈ xs, x < 2 ^ 64) :
    fromstring_u64 (tostring64 xs) = some xs := by
  induction xs with
  | nil => rfl
  | cons x t ih =>
    have hx : x < 2 ^ 64 := h x (by simp)
    have hx2 : x < 18446744073709551616 := by
      have : (2 : Nat) ^ 64 = 18446744073709551616 := by norm_num
      omega
    have ht : ∀ y ∈ t, y < 2 ^ 64 := fun y hy => h y (by simp [hy])
    have hflat : tostring64 (x :: t) = bytesOfU64 x ++ tostring64 t := by
      rw [tostring64, List.map_cons, List.flatten_cons, tostring64]
    rw [hflat, bytesOfU64]
    simp only [List.cons_append, List.nil_append]
    rw [fromstring_u64, ih ht]
    simp only [Option.map_some']
    congr 1
    have : x % 256 + x / 256 % 256 * 256 + x / 65536 % 256 * 65536 +
        x / 16777216 % 256 * 16777216 + x / 4294967296 % 256 * 4294967296 +
        x / 1099511627776 % 256 * 1099511627776 +
        x / 281474976710656 % 256 * 281474976710656 +
        x / 72057594037927936 % 256 * 72057594037927936 = x := by omega
    rw [this]

/-- `to_native` inverts `to_packed` on byte lists (with matching compression
flags), assuming the external zlib pair is lossless. -/
theorem to_native_to_packed (zc zd : List Nat → List Nat) (hz : ZlibOk zc zd)
    (raw : List Nat) (hraw : ∀ x ∈ raw, x < 256) (compress : Bool) :
    to_native zd (to_packed zc raw compress) compress = some raw := by
  cases compress with
  | false =>
    simp [to_native, to_packed, b64_roundtrip raw hraw]
  | true =>
    simp [to_native, to_packed, b64_roundtrip (zc raw) (hz raw hraw).2, (hz raw hraw).1]

/-- `unpack_pad` inverts `pack_pad` exactly. -/
theorem unpack_pack (zc zd : List Nat → List Nat) (hz : ZlibOk zc zd)
    (pad : List Nat) (unused : List Bool) (hpad : ∀ x ∈ pad, x < 256) :
    unpack_pad zd (pack_pad zc pad unused) = some (pad, unused) := by
  have h1 := to_native_to_packed zc zd hz pad hpad false
  have h2 := to_native_to_packed zc zd hz (tostring_bool unused)
    (tostring_bool_lt unused) true
  rw [unpack_pad, pack_pad]
  simp only at h1 h2
  simp [h1, h2, fromstring_tostring_bool]

/-- `to_native(to_packed(msg, True), uint64, True)` inverts exactly. -/
theorem decode_encode_encrypted (zc zd : List Nat → List Nat) (hz : ZlibOk zc zd)
    (msg : List Nat) (hmsg : ∀ x ∈ msg, x < 2 ^ 64) :
    decode_encrypted zd (encode_encrypted zc msg) = some msg := by
  have h1 := to_native_to_packed zc zd hz (tostring64 msg) (tostring64_lt msg) true
  rw [decode_encrypted, encode_encrypted]
  simp [h1, fromstring_tostring64 msg hmsg]

/-- **C5**: the persisted-store codec and the encrypted-message codec are
exact round trips: `unpack_pad(pack_pad(pad, unused))` returns the original
pad and mask bit-for-bit, and decoding an encoded `uint64` index sequence
returns the original sequence. -/
theorem codec_round_trip (zc zd : List Nat → List Nat) (hz : ZlibOk zc zd)
    (pad : List Nat) (unused : List Bool) (msg : List Nat)
    (hpad : ∀ x ∈ pad, x < 256) (hmsg : ∀ x ∈ msg, x < 2 ^ 64) :
    unpack_pad zd (pack_pad zc pad unused) = some (pad, unused) ∧
    decode_encrypted zd (encode_encrypted zc msg) = some msg :=
  ⟨unpack_pack zc zd hz pad unused hpad, decode_encode_encrypted zc zd hz msg hmsg⟩

theorem codec_round_trip_witness :
    unpack_pad (fun x => x) (pack_pad (fun x => x) [65, 0, 255] [true, false]) =
      some ([65, 0, 255], [true, false]) ∧
    decode_encrypted (fun x => x)
        (encode_encrypted (fun x => x) [0, 3, 9223372036854775808]) =
      some [0, 3, 9223372036854775808] :=
  codec_round_trip (fun x => x) (fun x => x) (fun bs h => ⟨rfl, h⟩)
    [65, 0, 255] [true, false] [0, 3, 9223372036854775808] (by decide) (by decide)

/-! ### Session-level claims -/

/-- **C6**: after a successful `encrypt_message`, decoding the persisted
document returns the pad unchanged together with the post-call mask, and that
mask differs from the pre-call mask exactly at the indices of the returned
ciphertext: those were unused before the call and are consumed after it, and
every other entry is unchanged. -/
theorem encrypt_message_persistence (zc zd : List Nat → List Nat) (hz : ZlibOk zc zd)
    (w : PadWriter) (hpad : ∀ x ∈ w.pad, x < 256) (message : List Nat)
    (rand : Nat → Nat) (enc : List Nat) (u2 : List Bool)
    (hok : encrypt message w.pad w.unused rand = (Except.ok enc, u2)) :
    unpack_pad zd ((encrypt_message zc w message rand).2).file = some (w.pad, u2) ∧
    (∀ i ∈ enc, w.unused.getD i false = true ∧ u2.getD i false = false) ∧
    (∀ i, i ∉ enc → u2.getD i false = w.unused.getD i false) := by
  obtain ⟨l, hres, hu2, hss⟩ :=
    encryptLoop_ok_spec w.pad rand (message.map byteOf) 0 w.unused [] enc u2 hok
  simp only [List.reverse_nil, List.nil_append] at hres
  subst hres
  have hfile : ((encrypt_message zc w message rand).2).file = pack_pad zc w.pad u2 := by
    simp [encrypt_message, hok]
  refine ⟨?_, fun i hi => ⟨stepSound_mem_unused w.pad w.unused _ enc hss i hi,
      hu2 ▸ consumeAll_getD_mem w.unused enc i hi⟩,
    fun i hi => by rw [hu2]; exact consumeAll_getD_not_mem w.unused enc i hi⟩
  rw [hfile]
  exact unpack_pack zc zd hz w.pad u2 hpad

theorem encrypt_message_persistence_witness :
    unpack_pad (fun x => x)
        ((encrypt_message (fun x => x) ⟨[65], [true], pack_pad (fun x => x) [65] [true]⟩
          [65] (fun _ => 0)).2).file = some ([65], [false]) ∧
    (∀ i ∈ ([0] : List Nat), ([true] : List Bool).getD i false = true ∧
      ([false] : List Bool).getD i false = false) ∧
    (∀ i, i ∉ ([0] : List Nat) →
      ([false] : List Bool).getD i false = ([true] : List Bool).getD i false) :=
  encrypt_message_persistence (fun x => x) (fun x => x) (fun bs h => ⟨rfl, h⟩)
    ⟨[65], [true], pack_pad (fun x => x) [65] [true]⟩ (by decide) [65] (fun _ => 0)
    [0] [false] rfl

/-- **C8**: after a successful `decrypt_message`, every index referenced in
the ciphertext is marked consumed, and decrypting the same ciphertext again
against the resulting store succeeds with the same plaintext and the
identical writer state (the re-mark step is idempotent on the mask). -/
theorem decrypt_message_remark_idempotent (zc zd : List Nat → List Nat)
    (w : PadWriter) (s : String) (m : List Nat) (w1 : PadWriter)
    (h1 : decrypt_message zc zd w s = some (m, w1)) :
    (∀ arr, decode_encrypted zd s = some arr →
      ∀ i ∈ arr, w1.unused.getD i false = false) ∧
    decrypt_message zc zd w1 s = some (m, w1) := by
  rw [decrypt_message] at h1
  cases harr : decode_encrypted zd s with
  | none => rw [harr] at h1; simp at h1
  | some arr =>
    rw [harr] at h1
    simp only [Option.bind_eq_bind, Option.some_bind] at h1
    cases hdec : decrypt arr w.pad with
    | none => rw [hdec] at h1; simp at h1
    | some msg =>
      rw [hdec] at h1
      simp only [Option.bind_eq_bind, Option.some_bind, Option.some_inj,
        Prod.mk.injEq] at h1
      obtain ⟨hm, hw⟩ := h1
      subst hm
      subst hw
      have hmem : ∀ i ∈ arr, (consumeAll w.unused arr).getD i false = false :=
        fun i hi => consumeAll_getD_mem w.unused arr i hi
      refine ⟨fun arr2 harr2 i hi => ?_, ?_⟩
      · have : arr2 = arr := by injection harr2 with h; exact h.symm
        subst this
        exact hmem i hi
      · rw [decrypt_message, harr]
        simp only [Option.bind_eq_bind, Option.some_bind]
        rw [hdec]
        simp only [Option.bind_eq_bind, Option.some_bind, Option.some_inj,
          Prod.mk.injEq]
        have hidem : consumeAll (consumeAll w.unused arr) arr = consumeAll w.unused arr :=
          consumeAll_of_all_false (consumeAll w.unused arr) arr hmem
        exact ⟨trivial, by rw [hidem]⟩

theorem decrypt_message_remark_idempotent_witness :
    decrypt_message (fun x => x) (fun x => x)
        ⟨[65], [false], pack_pad (fun x => x) [65] [false]⟩
        (String.mk (b64EncodeList (tostring64 [0]))) =
      some ([65], ⟨[65], [false], pack_pad (fun x => x) [65] [false]⟩) :=
  (decrypt_message_remark_idempotent (fun x => x) (fun x => x)
    ⟨[65], [true], pack_pad (fun x => x) [65] [true]⟩
    (String.mk (b64EncodeList (tostring64 [0]))) [65]
    ⟨[65], [false], pack_pad (fun x => x) [65] [false]⟩ rfl).2

end PadSpec
